import Mathlib

/-!
Verification of the bazaar search engine (`src/bz-search-engine.c`).

The C source is embedded shallowly:

* UTF-8 strings are modelled as lists of Unicode codepoints (`Str`), matching
  the codepoint-by-codepoint `g_utf8_*` iteration used throughout the source.
* The external GLib Unicode tables (`g_unichar_type`, `g_unichar_tolower`)
  are abstracted into a `GUnicode` interface; theorems are stated for every
  interface instance, and the concrete `asciiUni` instance (the ASCII
  fragment of the GLib behaviour) is used for concrete evaluations.
* `double` arithmetic is modelled with exact rational arithmetic (`ℚ`);
  `pow` from libm is an abstract parameter of the bias application.
* The fibers of libdex are pure functions here: a query is a pure function of
  the terms, the candidate snapshot and the bias table, which is exactly the
  determinism the source relies on.
-/

/-- External GLib Unicode interface used by the scorer: whether a codepoint
has Unicode type `G_UNICODE_SPACE_SEPARATOR` (`utf8_char_class` in the
source) and codepoint lowercasing (`g_unichar_tolower`). -/
structure GUnicode where
  isSpaceSep : Nat → Bool
  toLower : Nat → Nat

/-- A UTF-8 string, abstracted to its sequence of Unicode codepoints. -/
abbrev Str := List Nat

/-- Concrete `GUnicode` instance: the ASCII fragment of the GLib tables.
Codepoint 32 is the only ASCII space separator, and lowercasing maps
`A`..`Z` to `a`..`z`. Used for concrete test evaluations. -/
def asciiUni : GUnicode where
  isSpaceSep c := c == 32
  toLower c := if 65 ≤ c && c ≤ 90 then c + 32 else c

/-- A token as the iteration macro `UTF8_FOREACH_TOKEN_FORWARDS` hands it
to `test_strings`: the codepoints between the start and end pointers
(`content`) together with the length reported through the `read_utf8`
out-parameter of `utf8_skip_to_next_of_class` (`rlen`). For an ordinary
token the two agree; the phantom trailing token produced for a string
ending in a separator run (see `tokenize`) has a non-empty separator
`content` but a reported length of 0. -/
structure Tok where
  content : Str
  rlen : Nat
deriving DecidableEq

/-- Core of `utf8_skip_to_next_of_class`: splits a string into its maximal
runs of non-separator codepoints, skipping the separator runs between
them; no empty run is produced. `cur` holds the current run in reverse. -/
def tokenRunsAux (u : GUnicode) : Str → Str → List Str
  | [], cur => if cur.isEmpty then [] else [cur.reverse]
  | c :: rest, cur =>
    if u.isSpaceSep c then
      if cur.isEmpty then tokenRunsAux u rest []
      else cur.reverse :: tokenRunsAux u rest []
    else tokenRunsAux u rest (c :: cur)

/-- The maximal non-separator runs of a string, in order. -/
def tokenRuns (u : GUnicode) (s : Str) : List Str :=
  tokenRunsAux u s []

/-- The maximal run of separator codepoints at the end of a string. -/
def trailingSeps (u : GUnicode) (s : Str) : Str :=
  (s.reverse.takeWhile u.isSpaceSep).reverse

/-- An ordinary token: its reported length is its content length. -/
def realTok (c : Str) : Tok := ⟨c, c.length⟩

/-- The token stream of `UTF8_FOREACH_TOKEN_FORWARDS`, quirk included: one
token per non-separator run, and — because `utf8_skip_to_next_of_class`
never advances its start pointer when only separators remain, so the loop
condition `*_start_var != '\0'` holds once more with `read_utf8` left at
0 — a phantom trailing token whenever the string ends in a non-empty
separator run, whose content is that run and whose reported length is
0. -/
def tokenize (u : GUnicode) (s : Str) : List Tok :=
  (tokenRuns u s).map realTok ++
    (if trailingSeps u s = [] then [] else [⟨trailingSeps u s, 0⟩])

/-- One offset of the scan in `test_strings`. The loop breaks before trying
offset `o` when `query_tok_utf8_len > against_tok_utf8_len - consumed` on
unsigned arithmetic — never for a reported query length of 0, and at once
when the field token's reported length is too small; the codepoint
comparison then walks the tokens' contents under `g_unichar_tolower`. A
comparison that would read past the field token's end (reachable only
through phantom tokens) is modelled as failing, as it does under the real
Unicode tables, where the separator or NUL read there never equals a
query-token codepoint. -/
def tokenMatchesAt (u : GUnicode) (q a : Tok) (o : Nat) : Bool :=
  (if q.rlen = 0 then true else decide (q.rlen + o ≤ a.rlen)) &&
  decide (q.content.length + o ≤ a.content.length) &&
  (((a.content.drop o).take q.content.length).map u.toLower ==
    q.content.map u.toLower)

/-- The scan of one field token at every offset the break condition lets
`test_strings` try. -/
def tokenMatches (u : GUnicode) (q a : Tok) : Bool :=
  (List.range a.content.length).any (tokenMatchesAt u q a)

/-- The guard `accept_min_size > 0 && against_tok_utf8_len <
accept_min_size` of `test_strings`, on the reported token length: short
field tokens are skipped only when the bound is positive. -/
def tokenAccepted (acceptMinSize : Int) (a : Tok) : Bool :=
  !(decide (0 < acceptMinSize) && decide ((a.rlen : Int) < acceptMinSize))

/-- The partial credit `len(query-token)^2 / len(field-token)` accumulated
by `test_strings` for one matching pair, on the reported lengths. The C
`0.0/0.0` — a NaN, reachable only when a phantom query token meets a
phantom field token under a non-positive bound — is 0 here; both fail
every `score > threshold` test, so no conclusion depends on the
difference. -/
def tokenScore (q a : Tok) : ℚ :=
  ((q.rlen * q.rlen : Nat) : ℚ) / ((a.rlen : Nat) : ℚ)

/-- The scan of one query token over all field tokens in `test_strings`:
threads the running score, accumulating `tokenScore` for every accepted
matching field token, and reports whether any field token matched. -/
def scanAgainst (u : GUnicode) (amin : Int) (q : Tok) :
    List Tok → ℚ → ℚ × Bool
  | [], score => (score, false)
  | a :: rest, score =>
    if tokenAccepted amin a then
      if tokenMatches u q a then
        ((scanAgainst u amin q rest (score + tokenScore q a)).1, true)
      else scanAgainst u amin q rest score
    else scanAgainst u amin q rest score

/-- The outer loop of `test_strings` over the query tokens: as soon as one
query token matches no field token, the whole running score is zeroed and
the loop breaks. -/
def testStringsLoop (u : GUnicode) (amin : Int) (atoks : List Tok) :
    List Tok → ℚ → ℚ
  | [], score => score
  | q :: qs, score =>
    let r := scanAgainst u amin q atoks score
    if r.2 then testStringsLoop u amin atoks qs r.1 else 0

/-- `test_strings` from `src/bz-search-engine.c`: the fuzzy score of a query
string against a candidate field string with a minimum accepted field-token
length. -/
def test_strings (u : GUnicode) (query against : Str) (amin : Int) : ℚ :=
  testStringsLoop u amin (tokenize u against) (tokenize u query) 0

/-- The field tokens accepted by the length guard that a given query token
matches. -/
def matchingTokens (u : GUnicode) (amin : Int) (atoks : List Tok)
    (q : Tok) : List Tok :=
  atoks.filter fun a => tokenAccepted amin a && tokenMatches u q a

/-- The length guard as the specification words it, on plain tokens. -/
def strAccepted (acceptMinSize : Int) (a : Str) : Bool :=
  !(decide (0 < acceptMinSize) && decide ((a.length : Int) < acceptMinSize))

/-- Case-insensitive contiguous-substring occurrence at some offset, as the
specification words it. -/
def strMatches (u : GUnicode) (q a : Str) : Bool :=
  (List.range a.length).any fun i =>
    decide (q.length + i ≤ a.length) &&
    (((a.drop i).take q.length).map u.toLower == q.map u.toLower)

/-- The accepted field tokens a given query token matches, as the
specification words it. -/
def strMatchingTokens (u : GUnicode) (amin : Int) (atoks : List Str)
    (q : Str) : List Str :=
  atoks.filter fun a => strAccepted amin a && strMatches u q a

/-- `len(query-token)^2 / len(field-token)`, spec side. -/
def strScore (q a : Str) : ℚ :=
  ((q.length * q.length : Nat) : ℚ) / ((a.length : Nat) : ℚ)

/-- The scoring function as the specification words it: both strings are
tokenized by Unicode whitespace — into their non-separator runs, with no
phantom token — and the result is the sum, over every query token and
every accepted field token in which it occurs as a case-insensitive
contiguous substring, of `len(query-token)^2 / len(field-token)`, and
exactly 0 whenever some query token matches no field token. -/
def test_strings_spec (u : GUnicode) (query against : Str)
    (amin : Int) : ℚ :=
  let qtoks := tokenRuns u query
  let atoks := tokenRuns u against
  if qtoks.all (fun q => !(strMatchingTokens u amin atoks q).isEmpty) then
    (qtoks.map fun q =>
      ((strMatchingTokens u amin atoks q).map (strScore q)).sum).sum
  else 0

/-- A candidate record ("entry group"): the fields the engine reads under the
record's lock in `query_sub_task_fiber`. Accessors returning `NULL` in C are
modelled with `Option`. -/
structure EntryGroup where
  searchable : Bool
  id : Option Str
  title : Option Str
  developer : Option Str
  description : Option Str
  search_tokens : Option Str
deriving DecidableEq, Inhabited

/-- A compiled pattern (external `GRegex`), abstracted to the whole-string
language `lang` the pattern denotes together with the result of
`g_regex_replace` on a subject string and a replacement template (which can
fail, returning `NULL`). -/
structure GRegex where
  lang : Str → Bool
  rreplace : Str → Str → Option Str

/-- `g_regex_match`: PCRE search semantics, the pattern matches the subject
when some contiguous substring of the subject is in its language — the
engine compiles the bias pattern as written, without anchoring it. -/
def g_regex_match (r : GRegex) (s : Str) : Bool :=
  (List.range (s.length + 1)).any fun i =>
    (List.range (s.length - i + 1)).any fun l => r.lang ((s.drop i).take l)

/-- The `LINEAR` member of the boost-kind enumeration in the source. -/
def LINEAR : Nat := 0

/-- The `EXPONENTIAL` member of the boost-kind enumeration in the source. -/
def EXPONENTIAL : Nat := 1

/-- `BiasData` from the source: one entry of the bias table mirror.
`bias_data_new` zero-initialises, hence the defaults; the `union` of the C
struct is flattened into separate `slope`/`factor` fields, which agree with
the union because a valid entry sets only one of the two transforms. -/
structure BiasData where
  invalid : Bool := false
  regex : Option GRegex := none
  convert_to : Option Str := none
  boost : Option (List Str) := none
  boost_kind : Nat := 0
  slope : ℚ := 0
  y_intercept : ℚ := 0
  factor : ℚ := 0

/-- The query-rewrite step of `query_task_fiber`: when the bias carries a
`convert_to` template, the query is replaced by the `g_regex_replace`
result, kept unchanged when the replacement returns `NULL`. -/
def applyRewrite (r : GRegex) (convert_to : Option Str) (q : Str) : Str :=
  match convert_to with
  | none => q
  | some tmpl => (r.rreplace q tmpl).getD q

/-- The bias scan of `query_task_fiber` (lines 505-536): walk the bias table
in order; skip invalid entries; for every entry whose pattern matches the
current working query string, apply its rewrite (if any) to the working
query and collect the entry into the active set. Returns the final working
query string and the active biases in table order. -/
def collectBiases : List BiasData → Str → Str × List BiasData
  | [], q => (q, [])
  | b :: rest, q =>
    if b.invalid then collectBiases rest q
    else
      match b.regex with
      | none => collectBiases rest q
      | some r =>
        if g_regex_match r q then
          let out := collectBiases rest (applyRewrite r b.convert_to q)
          (out.1, b :: out.2)
        else collectBiases rest q

/-- `strcasecmp` equality as the source uses it on the title: codepoint
lowercase comparison. -/
def caseInsensEq (u : GUnicode) (a b : Str) : Bool :=
  a.map u.toLower == b.map u.toLower

/-- The exact-match test of `query_sub_task_fiber`: the query equals the
identifier exactly (`g_strcmp0`) or the title case-insensitively
(`strcasecmp`), each comparison skipped when the field is `NULL`. -/
def isExactMatch (u : GUnicode) (query : Str) (g : EntryGroup) : Bool :=
  (match g.id with
   | some i => query == i
   | none => false) ||
  (match g.title with
   | some t => caseInsensEq u query t
   | none => false)

/-- The score `(double) G_MAXINT` assigned to an exact match. -/
def G_MAXINT : ℚ := 2147483647

/-- The `EVALUATE_STRING` macro: a `NULL` field contributes 0, otherwise the
field is scored by `test_strings`. -/
def evalString (u : GUnicode) (query : Str) (s : Option Str)
    (amin : Int) : ℚ :=
  match s with
  | some s => test_strings u query s amin
  | none => 0

/-- The per-candidate base score of `query_sub_task_fiber`: `G_MAXINT` for
an exact identifier/title match, otherwise the weighted field sum
`title*2.0 + developer*1.0 + description*1.0 + search-tokens*1.5` with
minimum accepted token lengths 2, 2, 3 and unrestricted (-1). -/
def preBiasScore (u : GUnicode) (query : Str) (g : EntryGroup) : ℚ :=
  if isExactMatch u query g then G_MAXINT
  else
    evalString u query g.title 2 * 2 +
    evalString u query g.developer 2 * 1 +
    evalString u query g.description 3 * 1 +
    evalString u query g.search_tokens (-1) * (3 / 2)

/-- `g_hash_table_contains` on the boost set; a `NULL` identifier is treated
as belonging to no set (in C this lookup with a `NULL` key is undefined). -/
def boostContains (boost : List Str) (id : Option Str) : Bool :=
  match id with
  | some s => boost.contains s
  | none => false

/-- One step of the bias loop of `query_sub_task_fiber`: entries without a
boost set are skipped, as are those whose boost set lacks the candidate's
identifier; otherwise the running score is fully replaced according to the
boost kind. `powQ` is the external libm `pow`. -/
def applyBias (powQ : ℚ → ℚ → ℚ) (id : Option Str) (score : ℚ)
    (bias : BiasData) : ℚ :=
  match bias.boost with
  | none => score
  | some boost =>
    if boostContains boost id then
      if bias.boost_kind == LINEAR then
        bias.slope * score + bias.y_intercept
      else if bias.boost_kind == EXPONENTIAL then
        powQ bias.factor score + bias.y_intercept
      else score
    else score

/-- The full per-candidate score: the base score with every active bias
applied in table order. -/
def candidateScore (u : GUnicode) (powQ : ℚ → ℚ → ℚ) (query : Str)
    (active : List BiasData) (g : EntryGroup) : ℚ :=
  active.foldl (applyBias powQ g.id) (preBiasScore u query g)

/-- The `Score` record of the source: candidate index and value. -/
structure Score where
  idx : Nat
  val : ℚ
deriving DecidableEq

/-- The body of the shard loop for one candidate index: skip unsearchable
candidates, score the rest, and emit the entry only above the threshold. -/
def scoreEntry (u : GUnicode) (powQ : ℚ → ℚ → ℚ) (query : Str)
    (active : List BiasData) (snapshot : List EntryGroup) (threshold : ℚ)
    (idx : Nat) : Option Score :=
  match snapshot[idx]? with
  | none => none
  | some g =>
    if g.searchable then
      if threshold < candidateScore u powQ query active g then
        some ⟨idx, candidateScore u powQ query active g⟩
      else none
    else none

/-- `query_sub_task_fiber`: scores the slice
`[work_offset, work_offset + work_length)` of the snapshot and returns the
entries that cleared the threshold, in index order. -/
def querySubTaskFiber (u : GUnicode) (powQ : ℚ → ℚ → ℚ) (query : Str)
    (snapshot : List EntryGroup) (threshold : ℚ) (offset len : Nat)
    (active : List BiasData) : List Score :=
  (List.range len).filterMap fun i =>
    scoreEntry u powQ query active snapshot threshold (offset + i)

/-- The descending-score order induced by `cmp_scores` (`a` precedes `b`
when `b.val ≤ a.val`). -/
def scoreGE (a b : Score) : Prop := b.val ≤ a.val

instance : DecidableRel scoreGE :=
  fun a b => inferInstanceAs (Decidable (b.val ≤ a.val))

instance : IsTotal Score scoreGE := ⟨fun a b => le_total b.val a.val⟩

instance : IsTrans Score scoreGE :=
  ⟨fun _ _ _ h1 h2 => le_trans h2 h1⟩

/-- Deterministic model of `g_array_sort` with `cmp_scores`: a stable sort
into descending score order (`qsort` leaves the relative order of equal
scores unspecified; insertion sort is one consistent determinisation). -/
def sortScores (l : List Score) : List Score :=
  List.insertionSort scoreGE l

/-- The shard count `MAX (1, MIN (len / 512, g_get_num_processors ()))`;
`P` stands for the available parallelism. -/
def nSubTasks (n P : Nat) : Nat := max 1 (min (n / 512) P)

/-- `work_offset` of shard `i`: `i * scores_per_task`. -/
def shardOffset (n k i : Nat) : Nat := i * (n / k)

/-- `work_length` of shard `i`: `scores_per_task`, plus the remainder
`len % n_sub_tasks` when `i >= n_sub_tasks - 1`. -/
def shardLength (n k i : Nat) : Nat :=
  if k - 1 ≤ i then n / k + n % k else n / k

/-- `g_strjoinv (" ", terms)`: the terms joined with single spaces. -/
def joinSpace (terms : List Str) : Str :=
  List.intercalate [32] terms

/-- `query_task_fiber`: join the terms, scan the bias table (rewriting the
working query and collecting active biases), fan out one sub-task per
shard with threshold 1.0, concatenate the shard outputs and sort them
descending. Returns the interpreted (post-rewrite) query string and the
sorted score list. -/
def queryTaskFiber (u : GUnicode) (powQ : ℚ → ℚ → ℚ) (P : Nat)
    (terms : List Str) (snapshot : List EntryGroup)
    (biases : List BiasData) : Str × List Score :=
  let n := snapshot.length
  let k := nSubTasks n P
  let qa := collectBiases biases (joinSpace terms)
  let shards := (List.range k).map fun i =>
    querySubTaskFiber u powQ qa.1 snapshot 1 (shardOffset n k i)
      (shardLength n k i) qa.2
  (qa.1, sortScores shards.flatten)

/-- `BzSearchResult` as the engine fills it: the candidate, its original
snapshot index, and the score — absent on the trivial path, where
`bz_search_result_set_score` is never called. -/
structure SearchResult where
  group : EntryGroup
  original_index : Nat
  score : Option ℚ
deriving DecidableEq

/-- `BzFinishedSearchQuery`: the interpreted query string and the ordered
result list. -/
structure FinishedQuery where
  interpreted_query : Str
  results : List SearchResult
deriving DecidableEq

/-- The output built by the trivial branch of `bz_search_engine_query`:
every candidate of the model in original order, original indices set, no
score set, and an empty interpreted query. -/
def trivialOut (model : Option (List EntryGroup)) : FinishedQuery where
  interpreted_query := []
  results := (model.getD []).enum.map fun p => ⟨p.2, p.1, none⟩

/-- `bz_search_engine_query`: `none` models the error future returned on the
contract violation `terms == NULL || *terms == NULL`. With no backing
model, an empty model, or an empty first term (`**terms == '\0'`), every
candidate is returned in order with no score and an empty interpreted
query; otherwise the query task runs on a snapshot of the model. -/
def bz_search_engine_query (u : GUnicode) (powQ : ℚ → ℚ → ℚ) (P : Nat)
    (model : Option (List EntryGroup)) (biases : List BiasData)
    (terms : List Str) : Option FinishedQuery :=
  match terms with
  | [] => none
  | firstTerm :: _ =>
    let snapshot := model.getD []
    if model.isNone || snapshot.length == 0 || firstTerm.isEmpty then
      some (trivialOut model)
    else
      let out := queryTaskFiber u powQ P terms snapshot biases
      some { interpreted_query := out.1
             results := out.2.map fun s =>
               ⟨snapshot.getD s.idx default, s.idx, some s.val⟩ }

/-- A bias specification as handed to `biases_changed` (`BzSearchBias`).
The pattern is modelled by what the engine observes of it:
`regex_string = none` is a `NULL` pattern, `some none` a pattern string
whose `g_regex_new` compilation fails, and `some (some r)` one compiling
to `r`. -/
structure BzSearchBias where
  regex_string : Option (Option GRegex)
  convert_to : Option Str
  boost_appids : Option (List Str)
  linear_boost : Option (ℚ × ℚ)
  exponential_boost : Option (ℚ × ℚ)

/-- The permanently inert placeholder entry stored by the `SKIP()` macro of
`biases_changed`: only `invalid` is set. -/
def inertBias : BiasData := { invalid := true }

/-- The body of the `biases_changed` loop for one specification: structural
validation (a pattern must be present, and either a rewrite or a boost-id
list with exactly one transform), then pattern compilation; every failure
stores the inert placeholder. A present but empty boost-id list leaves the
boost set `NULL`, and the transform parameters default to the
zero-initialised `LINEAR` when no transform is declared. -/
def buildBiasEntry (spec : BzSearchBias) : BiasData :=
  if spec.regex_string.isNone ||
     (spec.convert_to.isNone &&
      (spec.boost_appids.isNone ||
       (spec.linear_boost.isNone && spec.exponential_boost.isNone))) then
    inertBias
  else if spec.linear_boost.isSome && spec.exponential_boost.isSome then
    inertBias
  else
    match spec.regex_string with
    | none => inertBias
    | some none => inertBias
    | some (some r) =>
      let boost : Option (List Str) :=
        match spec.boost_appids with
        | some l => if 0 < l.length then some l else none
        | none => none
      match spec.linear_boost, spec.exponential_boost with
      | some lin, _ =>
        { regex := some r, convert_to := spec.convert_to, boost := boost,
          boost_kind := LINEAR, slope := lin.1, y_intercept := lin.2 }
      | none, some ex =>
        { regex := some r, convert_to := spec.convert_to, boost := boost,
          boost_kind := EXPONENTIAL, factor := ex.1, y_intercept := ex.2 }
      | none, none =>
        { regex := some r, convert_to := spec.convert_to, boost := boost }

/-- A rebuild of the bias table mirror: `bz_search_engine_set_biases`
clears the mirror and replays `biases_changed (0, 0, n)`, which inserts
one entry per specification at its own position. -/
def rebuildBiases (specs : List BzSearchBias) : List BiasData :=
  specs.map buildBiasEntry

/-- The structural conditions under which `biases_changed` stores the inert
placeholder for a specification. -/
def specIsInvalid (s : BzSearchBias) : Bool :=
  s.regex_string.isNone ||
  (match s.regex_string with
   | some none => true
   | _ => false) ||
  (s.convert_to.isNone &&
   (s.boost_appids.isNone ||
    (s.linear_boost.isNone && s.exponential_boost.isNone))) ||
  (s.linear_boost.isSome && s.exponential_boost.isSome)

/-- Stub for the external libm `pow`, used to instantiate `powQ` in concrete
evaluations that never reach an exponential bias. -/
def qpow0 : ℚ → ℚ → ℚ := fun _ _ => 0

/-- A compiled pattern matching everything (such as `.*` or the empty
pattern): every string, the empty one included, is in its language. -/
def rTrue : GRegex where
  lang := fun _ => true
  rreplace := fun _ _ => none

/-- A compiled pattern whose language is exactly the one-codepoint string
`a` (such as the pattern `a`). -/
def rOnlyA : GRegex where
  lang := fun s => s == [97]
  rreplace := fun _ _ => none

/-- Test candidate whose identifier is `a`. -/
def gExact : EntryGroup := ⟨true, some [97], none, none, none, none⟩

/-- Test candidate whose identifier is `ab` and title is `NULL`. -/
def gAB : EntryGroup := ⟨true, some [97, 98], none, none, none, none⟩

/-- Test candidate whose identifier is `b` and title is `xab`. -/
def gXab : EntryGroup := ⟨true, some [98], some [120, 97, 98], none, none, none⟩

/-- Test candidate with identifier `x` and title `y`: it matches nothing. -/
def gPlain : EntryGroup := ⟨true, some [120], some [121], none, none, none⟩

/-- Test candidate whose identifier is the single space `" "`. -/
def gWsId : EntryGroup := ⟨true, some [32], none, none, none, none⟩

/-- Test bias: matches every query, boosts the candidate with identifier
`b` linearly with slope `2^31` and intercept 0. -/
def bBoost : BiasData :=
  { regex := some rTrue, boost := some [[98]], boost_kind := LINEAR,
    slope := 2147483648, y_intercept := 0 }

/-- Test bias whose pattern language is exactly `a`, carrying a boost set
so that it is structurally valid. -/
def bOnlyA : BiasData :=
  { regex := some rOnlyA, boost := some [[122]], boost_kind := LINEAR,
    slope := 1, y_intercept := 0 }

/-- A bias specification with no pattern, no rewrite and no boost: it is
incomplete in every way `biases_changed` checks. -/
def specInert : BzSearchBias := ⟨none, none, none, none, none⟩

theorem scanAgainst_eq (u : GUnicode) (amin : Int) (q : Tok)
    (atoks : List Tok) (s : ℚ) :
    scanAgainst u amin q atoks s =
      (s + ((matchingTokens u amin atoks q).map (tokenScore q)).sum,
       !(matchingTokens u amin atoks q).isEmpty) := by
  induction atoks generalizing s with
  | nil => simp [scanAgainst, matchingTokens]
  | cons a rest ih =>
    by_cases hacc : tokenAccepted amin a
    · by_cases hm : tokenMatches u q a
      · simp [scanAgainst, hacc, hm, matchingTokens, ih, add_assoc]
      · simp [scanAgainst, hacc, hm, matchingTokens, ih]
    · simp [scanAgainst, hacc, matchingTokens, ih]

theorem testStringsLoop_eq (u : GUnicode) (amin : Int) (atoks : List Tok)
    (qtoks : List Tok) (s : ℚ) :
    testStringsLoop u amin atoks qtoks s =
      if qtoks.all (fun q => !(matchingTokens u amin atoks q).isEmpty) then
        s + (qtoks.map fun q =>
          ((matchingTokens u amin atoks q).map (tokenScore q)).sum).sum
      else 0 := by
  induction qtoks generalizing s with
  | nil => simp [testStringsLoop]
  | cons q qs ih =>
    by_cases hm : (matchingTokens u amin atoks q).isEmpty
    · simp [testStringsLoop, scanAgainst_eq, hm]
    · simp [testStringsLoop, scanAgainst_eq, hm, ih, add_assoc]

theorem list_all_map {α β : Type} (f : α → β) (l : List α) (p : β → Bool) :
    (l.map f).all p = l.all fun a => p (f a) := by
  induction l with
  | nil => rfl
  | cons a l ih => simp [List.all_cons, ih]

theorem list_all_congr {α : Type} (l : List α) (p q : α → Bool)
    (h : ∀ x ∈ l, p x = q x) : l.all p = l.all q := by
  induction l with
  | nil => rfl
  | cons a l ih =>
    rw [List.all_cons, List.all_cons, h a (List.mem_cons_self a l),
      ih fun x hx => h x (List.mem_cons_of_mem a hx)]

theorem list_isEmpty_map {α β : Type} (f : α → β) (l : List α) :
    (l.map f).isEmpty = l.isEmpty := by
  cases l <;> rfl

theorem tokenRunsAux_ne_nil (u : GUnicode) :
    ∀ (s cur t : Str), t ∈ tokenRunsAux u s cur → t ≠ [] := by
  intro s
  induction s with
  | nil =>
    intro cur t ht
    by_cases hc : cur.isEmpty
    · simp [tokenRunsAux, hc] at ht
    · simp only [tokenRunsAux, hc, Bool.false_eq_true, if_false,
        List.mem_singleton] at ht
      subst ht
      intro hrev
      exact hc (by simp [List.isEmpty_iff, List.reverse_eq_nil_iff.mp hrev])
  | cons c rest ih =>
    intro cur t ht
    by_cases hsep : u.isSpaceSep c
    · by_cases hc : cur.isEmpty
      · rw [tokenRunsAux] at ht
        simp only [hsep, if_true, hc] at ht
        exact ih [] t ht
      · rw [tokenRunsAux] at ht
        simp only [hsep, if_true, hc, Bool.false_eq_true, if_false,
          List.mem_cons] at ht
        rcases ht with hteq | ht'
        · subst hteq
          intro hrev
          exact hc (by simp [List.isEmpty_iff, List.reverse_eq_nil_iff.mp hrev])
        · exact ih [] t ht'
    · rw [tokenRunsAux] at ht
      simp only [hsep, Bool.false_eq_true, if_false] at ht
      exact ih (c :: cur) t ht

theorem tokenRuns_ne_nil (u : GUnicode) (s : Str) (t : Str)
    (ht : t ∈ tokenRuns u s) : t ≠ [] :=
  tokenRunsAux_ne_nil u s [] t ht

theorem tokenAccepted_realTok (amin : Int) (c : Str) :
    tokenAccepted amin (realTok c) = strAccepted amin c := rfl

theorem tokenMatches_realTok (u : GUnicode) (q a : Str) :
    tokenMatches u (realTok q) (realTok a) = strMatches u q a := by
  unfold tokenMatches strMatches tokenMatchesAt realTok
  refine congrArg (List.any (List.range a.length)) (funext fun o => ?_)
  by_cases h0 : q.length = 0
  · obtain rfl := List.length_eq_zero.mp h0
    simp
  · simp only [h0, if_false]
    cases hd : decide (q.length + o ≤ a.length) <;> simp [hd]

theorem tokenMatches_phantom (u : GUnicode) (q : Tok) (tr : Str)
    (hq : q.rlen ≠ 0) : tokenMatches u q ⟨tr, 0⟩ = false := by
  unfold tokenMatches tokenMatchesAt
  simp only [List.any_eq_false]
  intro o _
  simp only [hq, if_false]
  have : ¬ (q.rlen + o ≤ 0) := by omega
  simp [this]

theorem matchingTokens_realTok (u : GUnicode) (amin : Int) (against : Str)
    (qc : Str) (hqc : qc ≠ []) :
    matchingTokens u amin (tokenize u against) (realTok qc) =
      (strMatchingTokens u amin (tokenRuns u against) qc).map realTok := by
  unfold tokenize matchingTokens strMatchingTokens
  rw [List.filter_append]
  have hphantom : List.filter
      (fun a => tokenAccepted amin a && tokenMatches u (realTok qc) a)
      (if trailingSeps u against = [] then []
       else [⟨trailingSeps u against, 0⟩]) = [] := by
    split
    · rfl
    · have hm : tokenMatches u (realTok qc) ⟨trailingSeps u against, 0⟩ =
          false :=
        tokenMatches_phantom u (realTok qc) _
          (fun h => hqc (List.length_eq_zero.mp h))
      simp [hm]
  rw [hphantom, List.append_nil, List.filter_map]
  congr 1
  refine List.filter_congr fun a ha => ?_
  simp only [Function.comp_apply, tokenAccepted_realTok,
    tokenMatches_realTok]

/-- C1 (amended): for every query string that does not end in a Unicode
space-separator run, `test_strings` returns the sum, over every query
token and every long-enough field token (the guard applying only when the
bound is positive) in which the query token occurs as a case-insensitive
codepoint-by-codepoint contiguous substring at some offset, of
`len(query-token)^2 / len(field-token)`, and exactly 0 whenever some
query token matches no field token. When the query does end in a
separator run, the token iterator emits a zero-length phantom trailing
token over that run; the phantom matches no ordinary field token, so the
conjunctive rule generally zeroes the whole score — see the
counterexample, where `test_strings "ab " "xab" 2` is 0, not `4/3`. -/
theorem test_strings_eq_spec (u : GUnicode) (query against : Str)
    (amin : Int) (h : trailingSeps u query = []) :
    test_strings u query against amin =
      test_strings_spec u query against amin := by
  unfold test_strings test_strings_spec
  have htq : tokenize u query = (tokenRuns u query).map realTok := by
    unfold tokenize
    rw [h]
    simp
  rw [htq, testStringsLoop_eq]
  have hmt : ∀ qc ∈ tokenRuns u query,
      matchingTokens u amin (tokenize u against) (realTok qc) =
        (strMatchingTokens u amin (tokenRuns u against) qc).map realTok :=
    fun qc hqc => matchingTokens_realTok u amin against qc
      (tokenRuns_ne_nil u query qc hqc)
  have hcond : ((tokenRuns u query).map realTok).all
      (fun q => !(matchingTokens u amin (tokenize u against) q).isEmpty) =
      (tokenRuns u query).all
        (fun qc =>
          !(strMatchingTokens u amin (tokenRuns u against) qc).isEmpty) := by
    rw [list_all_map]
    refine list_all_congr _ _ _ fun qc hqc => ?_
    rw [hmt qc hqc, list_isEmpty_map]
  have hsum : ((tokenRuns u query).map realTok).map
      (fun q =>
        ((matchingTokens u amin (tokenize u against) q).map
          (tokenScore q)).sum) =
      (tokenRuns u query).map
        (fun qc =>
          ((strMatchingTokens u amin (tokenRuns u against) qc).map
            (strScore qc)).sum) := by
    rw [List.map_map]
    refine List.map_congr_left fun qc hqc => ?_
    show ((matchingTokens u amin (tokenize u against) (realTok qc)).map
      (tokenScore (realTok qc))).sum = _
    rw [hmt qc hqc, List.map_map]
    rfl
  rw [hcond, hsum, zero_add]

theorem test_strings_eq_spec_witness :
    test_strings asciiUni [97, 98] [120, 97, 98] 2 =
      test_strings_spec asciiUni [97, 98] [120, 97, 98] 2 :=
  test_strings_eq_spec asciiUni [97, 98] [120, 97, 98] 2 rfl

/-- C1 is false as stated: for the query `"ab "` — reachable, e.g. from
the terms `["ab", ""]`, joined with spaces — the token iterator emits the
phantom trailing token over the final space; that token matches nothing
in the field `"xab"`, so the conjunctive rule zeroes the whole score,
while the claimed sum over the whitespace tokenization is `4/3`. -/
theorem test_strings_counterexample :
    test_strings asciiUni [97, 98, 32] [120, 97, 98] 2 = 0 ∧
    test_strings_spec asciiUni [97, 98, 32] [120, 97, 98] 2 = 4 / 3 := by
  constructor
  · unfold test_strings
    have htq : tokenize asciiUni [97, 98, 32] =
        [⟨[97, 98], 2⟩, ⟨[32], 0⟩] := by decide
    have hta : tokenize asciiUni [120, 97, 98] =
        [⟨[120, 97, 98], 3⟩] := by decide
    rw [htq, hta, testStringsLoop_eq]
    have hph : matchingTokens asciiUni 2 [⟨[120, 97, 98], 3⟩] ⟨[32], 0⟩ =
        [] := by decide
    simp [hph]
  · unfold test_strings_spec
    have hrq : tokenRuns asciiUni [97, 98, 32] = [[97, 98]] := by decide
    have hra : tokenRuns asciiUni [120, 97, 98] = [[120, 97, 98]] := by
      decide
    rw [hrq, hra]
    have hmt : strMatchingTokens asciiUni 2 [[120, 97, 98]] [97, 98] =
        [[120, 97, 98]] := by decide
    simp [hmt]
    norm_num [strScore]

theorem one_le_nSubTasks (n P : Nat) : 1 ≤ nSubTasks n P :=
  le_max_left 1 _

theorem flatten_range'_chunks (spt : Nat) :
    ∀ m : Nat,
      ((List.range m).map fun i => List.range' (i * spt) spt).flatten =
        List.range (m * spt) := by
  intro m
  induction m with
  | zero => simp
  | succ m ih =>
    rw [List.range_succ, List.map_append, List.flatten_append]
    simp only [List.map_cons, List.map_nil, List.flatten_cons,
      List.flatten_nil, List.append_nil, ih]
    rw [List.range_eq_range', List.range_eq_range']
    have h := List.range'_append 0 (m * spt) spt 1
    simp only [Nat.one_mul, Nat.zero_add] at h
    rw [h, Nat.succ_mul, Nat.add_comm spt (m * spt)]

theorem shard_indices_eq_range (n P : Nat) :
    ((List.range (nSubTasks n P)).map fun i =>
        List.range' (shardOffset n (nSubTasks n P) i)
          (shardLength n (nSubTasks n P) i)).flatten = List.range n := by
  have hk : 1 ≤ nSubTasks n P := one_le_nSubTasks n P
  obtain ⟨m, hm⟩ : ∃ m, nSubTasks n P = m + 1 :=
    ⟨nSubTasks n P - 1, (Nat.succ_pred_eq_of_pos hk).symm⟩
  rw [hm, List.range_succ, List.map_append, List.flatten_append]
  have hmap : (List.range m).map
      (fun i => List.range' (shardOffset n (m + 1) i) (shardLength n (m + 1) i)) =
      (List.range m).map fun i => List.range' (i * (n / (m + 1))) (n / (m + 1)) := by
    refine List.map_congr_left fun i hi => ?_
    have hi' : i < m := List.mem_range.mp hi
    have hle : ¬ (m ≤ i) := by omega
    simp [shardOffset, shardLength, hle]
  rw [hmap, flatten_range'_chunks]
  have hlast : shardLength n (m + 1) m = n / (m + 1) + n % (m + 1) := by
    have hle : m + 1 - 1 ≤ m := by omega
    simp [shardLength, hle]
  have hoff : shardOffset n (m + 1) m = m * (n / (m + 1)) := rfl
  simp only [List.map_cons, List.map_nil, List.flatten_cons, List.flatten_nil,
    List.append_nil, hlast, hoff]
  rw [List.range_eq_range', List.range_eq_range']
  have h := List.range'_append 0 (m * (n / (m + 1))) (n / (m + 1) + n % (m + 1)) 1
  simp only [Nat.one_mul, Nat.zero_add] at h
  rw [h]
  congr 1
  have hdm := Nat.div_add_mod n (m + 1)
  rw [Nat.succ_mul] at hdm
  generalize n / (m + 1) = q at *
  generalize n % (m + 1) = r at *
  generalize m * q = t at *
  omega

/-- C8: for every snapshot size `n` and available parallelism `P`, the shard
count is `max (1, min (n / 512, P))` with integer division, and the shards —
each of `n / k` candidates at offset `i * (n / k)`, with the remainder
`n % k` given to the last — exactly partition the candidate indices
`0 .. n-1`, so each candidate is scored by exactly one shard. -/
theorem shard_partition (n P : Nat) :
    nSubTasks n P = max 1 (min (n / 512) P) ∧
    ((List.range (nSubTasks n P)).map fun i =>
        List.range' (shardOffset n (nSubTasks n P) i)
          (shardLength n (nSubTasks n P) i)).flatten = List.range n :=
  ⟨rfl, shard_indices_eq_range n P⟩

theorem scoreEntry_eq_some_iff (u : GUnicode) (powQ : ℚ → ℚ → ℚ)
    (query : Str) (active : List BiasData) (snapshot : List EntryGroup)
    (threshold : ℚ) (idx : Nat) (e : Score) :
    scoreEntry u powQ query active snapshot threshold idx = some e ↔
      ∃ g, snapshot[idx]? = some g ∧ g.searchable = true ∧
        threshold < candidateScore u powQ query active g ∧
        e = ⟨idx, candidateScore u powQ query active g⟩ := by
  unfold scoreEntry
  cases h : snapshot[idx]? with
  | none => simp
  | some g =>
    cases hs : g.searchable with
    | false => simp [hs]
    | true =>
      by_cases ht : threshold < candidateScore u powQ query active g
      · simp only [hs, if_true, ht, if_pos, Option.some.injEq]
        constructor
        · intro he
          exact ⟨g, rfl, hs, ht, he.symm⟩
        · rintro ⟨g', hg', -, -, he⟩
          cases hg'
          exact he.symm
      · simp [hs, ht]

theorem querySubTaskFiber_eq (u : GUnicode) (powQ : ℚ → ℚ → ℚ)
    (query : Str) (snapshot : List EntryGroup) (threshold : ℚ)
    (offset len : Nat) (active : List BiasData) :
    querySubTaskFiber u powQ query snapshot threshold offset len active =
      (List.range' offset len).filterMap
        (scoreEntry u powQ query active snapshot threshold) := by
  rw [querySubTaskFiber, List.range'_eq_map_range, List.filterMap_map]
  rfl

theorem queryTaskFiber_snd_eq (u : GUnicode) (powQ : ℚ → ℚ → ℚ) (P : Nat)
    (terms : List Str) (snapshot : List EntryGroup)
    (biases : List BiasData) :
    (queryTaskFiber u powQ P terms snapshot biases).2 =
      sortScores ((List.range snapshot.length).filterMap
        (scoreEntry u powQ (collectBiases biases (joinSpace terms)).1
          (collectBiases biases (joinSpace terms)).2 snapshot 1)) := by
  simp only [queryTaskFiber, querySubTaskFiber_eq]
  congr 1
  rw [show (fun i => (List.range' (shardOffset snapshot.length (nSubTasks snapshot.length P) i)
        (shardLength snapshot.length (nSubTasks snapshot.length P) i)).filterMap
        (scoreEntry u powQ (collectBiases biases (joinSpace terms)).1
          (collectBiases biases (joinSpace terms)).2 snapshot 1)) =
      ((List.filterMap (scoreEntry u powQ (collectBiases biases (joinSpace terms)).1
          (collectBiases biases (joinSpace terms)).2 snapshot 1)) ∘
        fun i => List.range' (shardOffset snapshot.length (nSubTasks snapshot.length P) i)
          (shardLength snapshot.length (nSubTasks snapshot.length P) i)) from rfl]
  rw [← List.map_map, ← List.filterMap_flatten, shard_indices_eq_range]

theorem mem_queryTask_iff (u : GUnicode) (powQ : ℚ → ℚ → ℚ) (P : Nat)
    (terms : List Str) (snapshot : List EntryGroup)
    (biases : List BiasData) (e : Score) :
    e ∈ (queryTaskFiber u powQ P terms snapshot biases).2 ↔
      ∃ g, snapshot[e.idx]? = some g ∧ g.searchable = true ∧
        e.val = candidateScore u powQ
          (collectBiases biases (joinSpace terms)).1
          (collectBiases biases (joinSpace terms)).2 g ∧
        1 < e.val := by
  rw [queryTaskFiber_snd_eq, sortScores, List.mem_insertionSort]
  constructor
  · intro h
    obtain ⟨i, _, hsome⟩ := List.mem_filterMap.mp h
    obtain ⟨g, hg, hs, ht, he⟩ := (scoreEntry_eq_some_iff _ _ _ _ _ _ _ _).mp hsome
    subst he
    exact ⟨g, hg, hs, rfl, ht⟩
  · rintro ⟨g, hg, hs, hv, ht⟩
    refine List.mem_filterMap.mpr ⟨e.idx, ?_, ?_⟩
    · obtain ⟨hlt, -⟩ := List.getElem?_eq_some.mp hg
      exact List.mem_range.mpr hlt
    · refine (scoreEntry_eq_some_iff _ _ _ _ _ _ _ _).mpr ⟨g, hg, hs, ?_, ?_⟩
      · rw [← hv]; exact ht
      · cases e with
        | mk i v => simp only at hv; rw [hv]

theorem map_idx_filterMap_sublist (f : Nat → Option Score)
    (hf : ∀ i e, f i = some e → e.idx = i) :
    ∀ l : List Nat, ((l.filterMap f).map Score.idx).Sublist l := by
  intro l
  induction l with
  | nil => simp
  | cons a l ih =>
    cases h : f a with
    | none =>
      rw [List.filterMap_cons_none h]
      exact ih.cons a
    | some e =>
      rw [List.filterMap_cons_some h, List.map_cons, hf a e h]
      exact ih.cons₂ a

theorem queryTask_idx_nodup (u : GUnicode) (powQ : ℚ → ℚ → ℚ) (P : Nat)
    (terms : List Str) (snapshot : List EntryGroup)
    (biases : List BiasData) :
    (((queryTaskFiber u powQ P terms snapshot biases).2).map Score.idx).Nodup := by
  have hperm : ((queryTaskFiber u powQ P terms snapshot biases).2).Perm
      ((List.range snapshot.length).filterMap
        (scoreEntry u powQ (collectBiases biases (joinSpace terms)).1
          (collectBiases biases (joinSpace terms)).2 snapshot 1)) := by
    rw [queryTaskFiber_snd_eq]
    exact List.perm_insertionSort scoreGE _
  refine ((hperm.map Score.idx).nodup_iff).mpr ?_
  refine (map_idx_filterMap_sublist _ ?_ _).nodup (List.nodup_range _)
  intro i e he
  obtain ⟨g, -, -, -, he'⟩ := (scoreEntry_eq_some_iff _ _ _ _ _ _ _ _).mp he
  rw [he']

theorem queryTask_sorted_desc (u : GUnicode) (powQ : ℚ → ℚ → ℚ) (P : Nat)
    (terms : List Str) (snapshot : List EntryGroup)
    (biases : List BiasData) :
    ((queryTaskFiber u powQ P terms snapshot biases).2).Pairwise
      (fun a b => b.val ≤ a.val) := by
  rw [queryTaskFiber_snd_eq]
  exact List.sorted_insertionSort scoreGE _

/-- C7: for every non-trivial query, the result list of the query task
contains an entry for exactly the snapshot candidates that are flagged
searchable and whose final post-bias score strictly exceeds the threshold
1.0 — each exactly once — and the list is sorted in descending order of
score. -/
theorem query_results_filter_sorted (u : GUnicode) (powQ : ℚ → ℚ → ℚ)
    (P : Nat) (terms : List Str) (snapshot : List EntryGroup)
    (biases : List BiasData) :
    (∀ e : Score, e ∈ (queryTaskFiber u powQ P terms snapshot biases).2 ↔
       ∃ g, snapshot[e.idx]? = some g ∧ g.searchable = true ∧
         e.val = candidateScore u powQ
           (queryTaskFiber u powQ P terms snapshot biases).1
           (collectBiases biases (joinSpace terms)).2 g ∧
         1 < e.val) ∧
    ((queryTaskFiber u powQ P terms snapshot biases).2).Pairwise
      (fun a b => b.val ≤ a.val) ∧
    (((queryTaskFiber u powQ P terms snapshot biases).2).map Score.idx).Nodup :=
  ⟨fun e => mem_queryTask_iff u powQ P terms snapshot biases e,
   queryTask_sorted_desc u powQ P terms snapshot biases,
   queryTask_idx_nodup u powQ P terms snapshot biases⟩

theorem foldl_applyBias_no_boost (powQ : ℚ → ℚ → ℚ) (id : Option Str)
    (active : List BiasData)
    (h : ∀ b ∈ active, ∀ bs, b.boost = some bs →
      boostContains bs id = false) :
    ∀ s : ℚ, active.foldl (applyBias powQ id) s = s := by
  induction active with
  | nil => intro s; rfl
  | cons b rest ih =>
    intro s
    have hstep : applyBias powQ id s b = s := by
      unfold applyBias
      cases hb : b.boost with
      | none => rfl
      | some bs =>
        have hc := h b (List.mem_cons_self b rest) bs hb
        simp [hc]
    rw [List.foldl_cons, hstep]
    exact ih (fun b' hb' => h b' (List.mem_cons_of_mem b hb')) s

/-- C2 (amended): a candidate whose (post-rewrite) query equals its
identifier exactly or its title case-insensitively is assigned the score
`(double) G_MAXINT` (2147483647 — not the maximum representable `double`)
in place of the weighted-field computation; when no active bias's boost set
contains its identifier this is also its final score, its entry is in the
result list, the list is sorted descending, and every candidate ranked
strictly above it also scores at least `G_MAXINT`. (An active bias can
push another candidate's score above `G_MAXINT`, so the unqualified
"ranks at or above every other matching candidate" of the claim fails.) -/
theorem exact_match_rank_amended (u : GUnicode) (powQ : ℚ → ℚ → ℚ)
    (P : Nat) (terms : List Str) (snapshot : List EntryGroup)
    (biases : List BiasData) (i : Nat) (g : EntryGroup)
    (hg : snapshot[i]? = some g) (hs : g.searchable = true)
    (hex : isExactMatch u
      (queryTaskFiber u powQ P terms snapshot biases).1 g = true)
    (hnb : ∀ b ∈ (collectBiases biases (joinSpace terms)).2, ∀ bs,
      b.boost = some bs → boostContains bs g.id = false) :
    (⟨i, G_MAXINT⟩ : Score) ∈
      (queryTaskFiber u powQ P terms snapshot biases).2 ∧
    ((queryTaskFiber u powQ P terms snapshot biases).2).Pairwise
      (fun a b => b.val ≤ a.val) ∧
    ∀ (p q : Fin ((queryTaskFiber u powQ P terms snapshot biases).2).length),
      p < q →
      ((queryTaskFiber u powQ P terms snapshot biases).2).get q =
        ⟨i, G_MAXINT⟩ →
      G_MAXINT ≤
        (((queryTaskFiber u powQ P terms snapshot biases).2).get p).val := by
  have hscore : candidateScore u powQ
      (collectBiases biases (joinSpace terms)).1
      (collectBiases biases (joinSpace terms)).2 g = G_MAXINT := by
    unfold candidateScore
    rw [foldl_applyBias_no_boost powQ g.id _ hnb]
    unfold preBiasScore
    rw [if_pos]
    exact hex
  refine ⟨?_, queryTask_sorted_desc u powQ P terms snapshot biases, ?_⟩
  · refine (mem_queryTask_iff u powQ P terms snapshot biases _).mpr
      ⟨g, hg, hs, hscore.symm, ?_⟩
    norm_num [G_MAXINT]
  · intro p q hpq hq
    have hp := List.pairwise_iff_get.mp
      (queryTask_sorted_desc u powQ P terms snapshot biases) p q hpq
    rw [hq] at hp
    exact hp

theorem exact_match_rank_witness :
    (⟨0, G_MAXINT⟩ : Score) ∈
      (queryTaskFiber asciiUni qpow0 1 [[97]] [gExact] []).2 :=
  (exact_match_rank_amended asciiUni qpow0 1 [[97]] [gExact] [] 0 gExact
    rfl rfl (by decide)
    (fun b hb => absurd hb (List.not_mem_nil b))).1

theorem ts_ab_xab : test_strings asciiUni [97, 98] [120, 97, 98] 2 = 4 / 3 := by
  unfold test_strings
  have ha : tokenize asciiUni [120, 97, 98] = [⟨[120, 97, 98], 3⟩] := by
    decide
  have hq : tokenize asciiUni [97, 98] = [⟨[97, 98], 2⟩] := by decide
  rw [ha, hq, testStringsLoop_eq]
  have hmt : matchingTokens asciiUni 2 [⟨[120, 97, 98], 3⟩] ⟨[97, 98], 2⟩ =
      [⟨[120, 97, 98], 3⟩] := by decide
  simp [hmt]
  norm_num [tokenScore]

theorem preBias_gXab : preBiasScore asciiUni [97, 98] gXab = 8 / 3 := by
  have hex : isExactMatch asciiUni [97, 98] gXab = false := by decide
  unfold preBiasScore
  rw [hex]
  have ht : gXab.title = some [120, 97, 98] := rfl
  have hd : gXab.developer = none := rfl
  have hde : gXab.description = none := rfl
  have hst : gXab.search_tokens = none := rfl
  rw [ht, hd, hde, hst]
  simp only [evalString, ts_ab_xab]
  norm_num

theorem score_gXab :
    candidateScore asciiUni qpow0 [97, 98] [bBoost] gXab =
      17179869184 / 3 := by
  have hid : gXab.id = some [98] := rfl
  have happ : applyBias qpow0 (some [98]) (8 / 3 : ℚ) bBoost =
      2147483648 * (8 / 3) + 0 := by
    have hbc : boostContains [[98]] (some [98]) = true := by decide
    simp [applyBias, bBoost, hbc, LINEAR]
  simp only [candidateScore, List.foldl_cons, List.foldl_nil]
  rw [preBias_gXab, hid, happ]
  norm_num

theorem score_gAB :
    candidateScore asciiUni qpow0 [97, 98] [bBoost] gAB = G_MAXINT := by
  have hpre : preBiasScore asciiUni [97, 98] gAB = G_MAXINT := by
    have hex : isExactMatch asciiUni [97, 98] gAB = true := by decide
    unfold preBiasScore
    rw [hex]
    simp
  have hid : gAB.id = some [97, 98] := rfl
  have happ : applyBias qpow0 (some [97, 98]) G_MAXINT bBoost = G_MAXINT := by
    have hbc : boostContains [[98]] (some [97, 98]) = false := by decide
    simp [applyBias, bBoost, hbc]
  simp only [candidateScore, List.foldl_cons, List.foldl_nil]
  rw [hpre, hid, happ]

/-- C2 is false as stated: in the query `ab` over the snapshot
`[gAB, gXab]` with the single active bias `bBoost` (linear slope `2^31` on
the identifier `b`), the candidate `gAB` is an exact identifier match of
the post-rewrite query, yet the result list ranks `gXab` (index 1) above
it, because the linear boost lifts `gXab` past `(double) G_MAXINT`. -/
theorem exact_match_rank_counterexample :
    isExactMatch asciiUni
      (queryTaskFiber asciiUni qpow0 1 [[97, 98]] [gAB, gXab] [bBoost]).1
      gAB = true ∧
    ((queryTaskFiber asciiUni qpow0 1 [[97, 98]] [gAB, gXab] [bBoost]).2).map
      Score.idx = [1, 0] := by
  refine ⟨by decide, ?_⟩
  rw [queryTaskFiber_snd_eq]
  have hcollect : collectBiases [bBoost] (joinSpace [[97, 98]]) =
      ([97, 98], [bBoost]) := rfl
  simp only [hcollect]
  have hf0 : scoreEntry asciiUni qpow0 [97, 98] [bBoost] [gAB, gXab] 1 0 =
      some ⟨0, G_MAXINT⟩ := by
    unfold scoreEntry
    simp only [List.getElem?_cons_zero]
    rw [score_gAB]
    have hs : gAB.searchable = true := rfl
    have h1 : (1 : ℚ) < G_MAXINT := by norm_num [G_MAXINT]
    simp [hs, h1]
  have hf1 : scoreEntry asciiUni qpow0 [97, 98] [bBoost] [gAB, gXab] 1 1 =
      some ⟨1, 17179869184 / 3⟩ := by
    unfold scoreEntry
    have hsec : ([gAB, gXab])[1]? = some gXab := rfl
    simp only [hsec]
    rw [score_gXab]
    have hs : gXab.searchable = true := rfl
    have h1 : (1 : ℚ) < 17179869184 / 3 := by norm_num
    simp [hs, h1]
  have hrange : List.range ([gAB, gXab].length) = [0, 1] := rfl
  rw [hrange, List.filterMap_cons_some hf0, List.filterMap_cons_some hf1,
    List.filterMap_nil]
  have hnot : ¬ scoreGE (⟨0, G_MAXINT⟩ : Score) ⟨1, 17179869184 / 3⟩ := by
    norm_num [scoreGE, G_MAXINT]
  simp [sortScores, List.insertionSort, List.orderedInsert, hnot]

/-- C3 (amended): during query coordination a valid bias is collected into
the active set exactly when its compiled pattern matches anywhere WITHIN
the working query string (`g_regex_match` search semantics on the
unanchored pattern — not necessarily the whole string); when a matching
bias carries a rewrite, the working query is replaced by the
`g_regex_replace` result; biases are examined in table order against the
current (possibly already rewritten) working query, invalid entries are
skipped, and the active set is a subsequence of the table in order. -/
theorem bias_collection_amended :
    (∀ (b : BiasData) (r : GRegex) (rest : List BiasData) (q : Str),
      collectBiases ({ b with invalid := false, regex := some r } :: rest) q =
        if g_regex_match r q then
          ((collectBiases rest (applyRewrite r b.convert_to q)).1,
           { b with invalid := false, regex := some r } ::
             (collectBiases rest (applyRewrite r b.convert_to q)).2)
        else collectBiases rest q) ∧
    (∀ (b : BiasData) (rest : List BiasData) (q : Str),
      collectBiases ({ b with invalid := true } :: rest) q =
        collectBiases rest q) ∧
    (∀ (r : GRegex) (q : Str), g_regex_match r q = true ↔
      ∃ i l, i + l ≤ q.length ∧ r.lang ((q.drop i).take l) = true) ∧
    (∀ (biases : List BiasData) (q : Str),
      ((collectBiases biases q).2).Sublist biases) := by
  refine ⟨?_, ?_, ?_, ?_⟩
  · intro b r rest q
    by_cases hm : g_regex_match r q
    · simp [collectBiases, hm]
    · simp [collectBiases, hm]
  · intro b rest q
    simp [collectBiases]
  · intro r q
    unfold g_regex_match
    simp only [List.any_eq_true, List.mem_range]
    constructor
    · rintro ⟨i, hi, l, hl, hlang⟩
      exact ⟨i, l, by omega, hlang⟩
    · rintro ⟨i, l, hle, hlang⟩
      exact ⟨i, by omega, l, by omega, hlang⟩
  · intro biases
    induction biases with
    | nil => intro q; simp [collectBiases]
    | cons b rest ih =>
      intro q
      by_cases hinv : b.invalid
      · simp only [collectBiases, hinv]
        exact (ih q).cons b
      · cases hr : b.regex with
        | none =>
          simp only [collectBiases, hinv, hr]
          simp only [Bool.false_eq_true, if_false]
          exact (ih q).cons b
        | some r =>
          by_cases hm : g_regex_match r q
          · simp only [collectBiases, hinv, hr, hm]
            simp only [Bool.false_eq_true, if_false, if_true]
            exact (ih (applyRewrite r b.convert_to q)).cons₂ b
          · simp only [collectBiases, hinv, hr, hm]
            simp only [Bool.false_eq_true, if_false]
            exact (ih q).cons b

/-- C3 is false as stated: the pattern of `bOnlyA` matches only the string
`a`, yet with working query `ab` the bias is collected into the active
set, because the engine compiles the pattern unanchored and
`g_regex_match` searches every substring of the query. -/
theorem bias_collection_counterexample :
    (collectBiases [bOnlyA] [97, 98]).2 = [bOnlyA] ∧
    rOnlyA.lang [97, 98] = false :=
  ⟨rfl, rfl⟩

/-- C5: for every candidate that is not an exact identifier/title match,
the pre-bias score is `title*2.0 + developer*1.0 + description*1.0 +
search-tokens*1.5`, each field scored by `test_strings` with minimum
accepted token length 2 for the title, 2 for the developer, 3 for the
description and no restriction (-1) for the search tokens, a `NULL` field
contributing 0. -/
theorem weighted_field_sum (u : GUnicode) (query : Str) (g : EntryGroup)
    (h : isExactMatch u query g = false) :
    preBiasScore u query g =
      (match g.title with
       | some s => test_strings u query s 2
       | none => 0) * 2 +
      (match g.developer with
       | some s => test_strings u query s 2
       | none => 0) * 1 +
      (match g.description with
       | some s => test_strings u query s 3
       | none => 0) * 1 +
      (match g.search_tokens with
       | some s => test_strings u query s (-1)
       | none => 0) * (3 / 2) := by
  unfold preBiasScore
  simp only [h, Bool.false_eq_true, if_false]
  rfl

theorem weighted_field_sum_witness :
    preBiasScore asciiUni [97] gPlain =
      (match gPlain.title with
       | some s => test_strings asciiUni [97] s 2
       | none => 0) * 2 +
      (match gPlain.developer with
       | some s => test_strings asciiUni [97] s 2
       | none => 0) * 1 +
      (match gPlain.description with
       | some s => test_strings asciiUni [97] s 3
       | none => 0) * 1 +
      (match gPlain.search_tokens with
       | some s => test_strings asciiUni [97] s (-1)
       | none => 0) * (3 / 2) :=
  weighted_field_sum asciiUni [97] gPlain (by decide)

/-- C6: every active bias whose boost set contains the candidate's
identifier is applied in table order as a full replacement of the running
score — a linear entry replaces the score `s` with `slope*s + intercept`
and an exponential entry with `pow(factor, s) + intercept`; in particular
a single linear bias `(slope, intercept)` on candidate `g` yields
`slope * base + intercept` where `base` is `g`'s score with no active
biases. -/
theorem bias_transform_semantics (u : GUnicode) (powQ : ℚ → ℚ → ℚ)
    (query : Str) (g : EntryGroup) :
    (∀ pre post : List BiasData,
      candidateScore u powQ query (pre ++ post) g =
        post.foldl (applyBias powQ g.id)
          (candidateScore u powQ query pre g)) ∧
    (∀ (s : Str) (ids : List Str) (slope icpt : ℚ),
      g.id = some s → s ∈ ids →
      candidateScore u powQ query
        [{ boost := some ids, boost_kind := LINEAR, slope := slope,
           y_intercept := icpt }] g =
        slope * candidateScore u powQ query [] g + icpt) ∧
    (∀ (s : Str) (ids : List Str) (factor icpt : ℚ),
      g.id = some s → s ∈ ids →
      candidateScore u powQ query
        [{ boost := some ids, boost_kind := EXPONENTIAL, factor := factor,
           y_intercept := icpt }] g =
        powQ factor (candidateScore u powQ query [] g) + icpt) := by
  refine ⟨?_, ?_, ?_⟩
  · intro pre post
    simp [candidateScore, List.foldl_append]
  · intro s ids slope icpt hid hmem
    have hc : boostContains ids (some s) = true := by
      simp [boostContains, hmem]
    simp [candidateScore, applyBias, hid, hc, LINEAR]
  · intro s ids factor icpt hid hmem
    have hc : boostContains ids (some s) = true := by
      simp [boostContains, hmem]
    simp [candidateScore, applyBias, hid, hc, LINEAR, EXPONENTIAL]

theorem bias_transform_witness :
    candidateScore asciiUni qpow0 [97]
      [{ boost := some [[120]], boost_kind := LINEAR, slope := 2,
         y_intercept := 1 }] gPlain =
      2 * candidateScore asciiUni qpow0 [97] [] gPlain + 1 :=
  (bias_transform_semantics asciiUni qpow0 [97] gPlain).2.1
    [120] [[120]] 2 1 rfl (by decide)

theorem buildBiasEntry_invalid (spec : BzSearchBias)
    (h : specIsInvalid spec = true) : buildBiasEntry spec = inertBias := by
  unfold buildBiasEntry
  unfold specIsInvalid at h
  cases hrs : spec.regex_string with
  | none => simp [hrs]
  | some ro =>
    cases ro with
    | none =>
      split
      · rfl
      · split
        · rfl
        · simp [hrs]
    | some r =>
      simp only [hrs, Option.isNone_some, Bool.false_or] at h
      rcases Bool.or_eq_true_iff.mp h with hc | hc
      · simp [hrs, hc]
      · split
        · rfl
        · simp [hc]

/-- C9: a rebuild of the bias table stores one entry per specification —
positional indices stay stable — with a permanently inert placeholder at
the position of every specification that lacks a pattern, whose pattern
fails to compile, that has neither a rewrite nor a usable boost
definition, or that declares both a linear and an exponential transform;
and an invalid entry is never applied to any query: the bias scan skips
it, leaving both the working query (so it never rewrites) and the active
set (so it never boosts) exactly as if the entry were absent. -/
theorem bias_table_rebuild_inert (specs : List BzSearchBias) :
    (rebuildBiases specs).length = specs.length ∧
    (∀ (i : Nat) (spec : BzSearchBias), specs[i]? = some spec →
      specIsInvalid spec = true →
      (rebuildBiases specs)[i]? = some inertBias) ∧
    (∀ (pre post : List BiasData) (b : BiasData) (q : Str),
      b.invalid = true →
      collectBiases (pre ++ b :: post) q = collectBiases (pre ++ post) q) := by
  refine ⟨by simp [rebuildBiases], ?_, ?_⟩
  · intro i spec hs hinv
    rw [rebuildBiases, List.getElem?_map, hs]
    simp [buildBiasEntry_invalid spec hinv]
  · intro pre post b q hb
    induction pre generalizing q with
    | nil =>
      simp only [List.nil_append]
      simp [collectBiases, hb]
    | cons a rest ih =>
      simp only [List.cons_append, collectBiases]
      by_cases hai : a.invalid
      · simp [hai, ih]
      · cases har : a.regex with
        | none => simp [hai, har, ih]
        | some r =>
          by_cases hm : g_regex_match r q
          · simp [hai, har, hm, ih]
          · simp [hai, har, hm, ih]

theorem bias_table_rebuild_witness :
    (rebuildBiases [specInert])[0]? = some inertBias ∧
    collectBiases ([] ++ inertBias :: []) [] = collectBiases ([] ++ []) [] :=
  ⟨(bias_table_rebuild_inert [specInert]).2.1 0 specInert rfl rfl,
   (bias_table_rebuild_inert [specInert]).2.2 [] [] inertBias [] rfl⟩

theorem joinSpace_single (w : Str) : joinSpace [w] = w := by
  simp [joinSpace, List.intercalate]

theorem tokenRuns_sep_nil (u : GUnicode) :
    ∀ w : Str, (∀ c ∈ w, u.isSpaceSep c = true) → tokenRuns u w = [] := by
  intro w
  induction w with
  | nil => intro _; rfl
  | cons c rest ih =>
    intro hw
    have hc : u.isSpaceSep c = true := hw c (List.mem_cons_self c rest)
    show tokenRunsAux u (c :: rest) [] = []
    simp only [tokenRunsAux, hc, if_true, List.isEmpty_nil]
    exact ih fun d hd => hw d (List.mem_cons_of_mem c hd)

theorem tokenize_sep_zero_rlen (u : GUnicode) (w : Str)
    (hw : ∀ c ∈ w, u.isSpaceSep c = true) :
    ∀ t ∈ tokenize u w, t.rlen = 0 := by
  intro t ht
  unfold tokenize at ht
  rw [tokenRuns_sep_nil u w hw] at ht
  simp only [List.map_nil, List.nil_append] at ht
  by_cases htr : trailingSeps u w = []
  · rw [if_pos htr] at ht
    exact absurd ht (List.not_mem_nil t)
  · rw [if_neg htr, List.mem_singleton] at ht
    rw [ht]

theorem test_strings_zero_rlen (u : GUnicode) (q a : Str) (amin : Int)
    (hq : ∀ t ∈ tokenize u q, t.rlen = 0) :
    test_strings u q a amin = 0 := by
  unfold test_strings
  rw [testStringsLoop_eq]
  split
  · rw [zero_add]
    refine List.sum_eq_zero fun x hx => ?_
    obtain ⟨t, ht, rfl⟩ := List.mem_map.mp hx
    refine List.sum_eq_zero fun y hy => ?_
    obtain ⟨b, hb, rfl⟩ := List.mem_map.mp hy
    simp [tokenScore, hq t ht]
  · rfl

theorem evalString_zero_rlen (u : GUnicode) (q : Str) (s : Option Str)
    (amin : Int) (hq : ∀ t ∈ tokenize u q, t.rlen = 0) :
    evalString u q s amin = 0 := by
  cases s with
  | none => rfl
  | some s => exact test_strings_zero_rlen u q s amin hq

theorem preBias_zero_rlen (u : GUnicode) (q : Str) (g : EntryGroup)
    (hex : isExactMatch u q g = false)
    (hq : ∀ t ∈ tokenize u q, t.rlen = 0) :
    preBiasScore u q g = 0 := by
  unfold preBiasScore
  simp only [hex, Bool.false_eq_true, if_false,
    evalString_zero_rlen u q _ _ hq]
  norm_num

theorem query_trivial_of_cond (u : GUnicode) (powQ : ℚ → ℚ → ℚ) (P : Nat)
    (model : Option (List EntryGroup)) (biases : List BiasData)
    (t : Str) (ts : List Str)
    (h : model = none ∨ (model.getD []).length = 0 ∨ t = []) :
    bz_search_engine_query u powQ P model biases (t :: ts) =
      some (trivialOut model) := by
  have hcond : (model.isNone || ((model.getD []).length == 0) || t.isEmpty)
      = true := by
    rcases h with h | h | h
    · simp [h]
    · simp [h]
    · simp [h]
  simp [bz_search_engine_query, hcond]

/-- C4 (amended): for every call to `query` where the backing collection is
absent, the collection is empty, or the first term is the empty string,
the operation resolves successfully (never an error) to a result set
containing every candidate exactly once, in original snapshot order, with
no exclusions, no score, and an empty interpreted query. (The claim's
condition "the joined query string is empty or whitespace" does not match
the code: a whitespace-only non-empty first term takes the full scoring
path instead — see the counterexample.) -/
theorem trivial_path_all_candidates (u : GUnicode) (powQ : ℚ → ℚ → ℚ)
    (P : Nat) (model : Option (List EntryGroup)) (biases : List BiasData)
    (t : Str) (ts : List Str)
    (h : model = none ∨ (model.getD []).length = 0 ∨ t = []) :
    bz_search_engine_query u powQ P model biases (t :: ts) =
      some (trivialOut model) ∧
    (trivialOut model).interpreted_query = [] ∧
    (trivialOut model).results.length = (model.getD []).length ∧
    ∀ i : Nat, ((trivialOut model).results)[i]? =
      ((model.getD [])[i]?).map fun g => ⟨g, i, none⟩ := by
  refine ⟨query_trivial_of_cond u powQ P model biases t ts h, rfl, ?_, ?_⟩
  · simp [trivialOut]
  · intro i
    simp only [trivialOut, List.getElem?_map, List.getElem?_enum,
      Option.map_map]
    cases (model.getD [])[i]? <;> rfl

theorem trivial_path_witness :
    bz_search_engine_query asciiUni qpow0 1 none [] [[97]] =
      some (trivialOut none) ∧
    (trivialOut (none : Option (List EntryGroup))).interpreted_query = [] ∧
    (trivialOut (none : Option (List EntryGroup))).results.length =
      ((none : Option (List EntryGroup)).getD []).length ∧
    ∀ i : Nat,
      ((trivialOut (none : Option (List EntryGroup))).results)[i]? =
        (((none : Option (List EntryGroup)).getD [])[i]?).map
          fun g => ⟨g, i, none⟩ :=
  trivial_path_all_candidates asciiUni qpow0 1 none [] [97] [] (Or.inl rfl)

theorem score_gPlain_ws :
    candidateScore asciiUni qpow0 [32] [] gPlain = 0 := by
  simp only [candidateScore, List.foldl_nil]
  refine preBias_zero_rlen asciiUni [32] gPlain (by decide) ?_
  exact tokenize_sep_zero_rlen asciiUni [32] (by decide)

theorem queryTask_ws_gPlain :
    queryTaskFiber asciiUni qpow0 1 [[32]] [gPlain] [] = ([32], []) := by
  have h2 : (queryTaskFiber asciiUni qpow0 1 [[32]] [gPlain] []).2 = [] := by
    rw [queryTaskFiber_snd_eq]
    have hcollect : collectBiases [] (joinSpace [[32]]) = ([32], []) := rfl
    simp only [hcollect]
    have hf0 : scoreEntry asciiUni qpow0 [32] [] [gPlain] 1 0 = none := by
      unfold scoreEntry
      simp only [List.getElem?_cons_zero]
      rw [score_gPlain_ws]
      have hlt : ¬ ((1 : ℚ) < 0) := by norm_num
      simp [hlt]
    have hrange : List.range ([gPlain].length) = [0] := rfl
    rw [hrange, List.filterMap_cons_none hf0, List.filterMap_nil]
    rfl
  have h1 : (queryTaskFiber asciiUni qpow0 1 [[32]] [gPlain] []).1 = [32] :=
    rfl
  exact Prod.ext h1 h2

/-- C4 is false as stated: with one candidate and the single term `" "`
(the joined query string is whitespace but the first term is non-empty),
the query takes the full scoring path and resolves to an empty result
list with interpreted query `" "`, not to the all-candidates result set
with an empty interpreted query demanded by the claim. -/
theorem whitespace_query_counterexample :
    bz_search_engine_query asciiUni qpow0 1 (some [gPlain]) [] [[32]] =
      some { interpreted_query := [32], results := [] } ∧
    (some { interpreted_query := [32], results := [] } :
        Option FinishedQuery) ≠
      some (trivialOut (some [gPlain])) := by
  constructor
  · simp [bz_search_engine_query, queryTask_ws_gPlain]
  · decide

/-- C10 (amended): the trivial all-candidates path of `query` is taken
exactly when the model reference is null, the model has zero items, or the
first term is the empty string; in particular a call with terms
`["", "x"]` returns every candidate unranked without searching for `"x"`.
A call whose single term is a whitespace-only string runs the full scoring
path and returns an empty result list, provided no candidate's identifier
or title matches the query, the active biases leave the query unrewritten
and none of them carries a boost set — without those provisos the result
list need not be empty (see the counterexample, where a candidate whose
identifier is the whitespace string itself is returned). -/
theorem trivial_path_condition_amended :
    (∀ (u : GUnicode) (powQ : ℚ → ℚ → ℚ) (P : Nat)
       (model : Option (List EntryGroup)) (biases : List BiasData)
       (t : Str) (ts : List Str),
      bz_search_engine_query u powQ P model biases (t :: ts) =
          some (trivialOut model) ↔
        (model = none ∨ (model.getD []).length = 0 ∨ t = [])) ∧
    (∀ (u : GUnicode) (powQ : ℚ → ℚ → ℚ) (P : Nat)
       (model : Option (List EntryGroup)) (biases : List BiasData)
       (x : Str),
      bz_search_engine_query u powQ P model biases [[], x] =
        some (trivialOut model)) ∧
    (∀ (u : GUnicode) (powQ : ℚ → ℚ → ℚ) (P : Nat)
       (m : List EntryGroup) (biases : List BiasData) (w : Str),
      w ≠ [] → m ≠ [] →
      (∀ c ∈ w, u.isSpaceSep c = true) →
      (collectBiases biases w).1 = w →
      (∀ b ∈ (collectBiases biases w).2, b.boost = none) →
      (∀ g ∈ m, isExactMatch u w g = false) →
      bz_search_engine_query u powQ P (some m) biases [w] =
        some { interpreted_query := w, results := [] }) := by
  refine ⟨?_, ?_, ?_⟩
  · intro u powQ P model biases t ts
    constructor
    · intro heq
      by_contra hcond
      push_neg at hcond
      obtain ⟨hm, hn, ht⟩ := hcond
      obtain ⟨m, hmm⟩ : ∃ m, model = some m := by
        cases model with
        | none => exact absurd rfl hm
        | some m => exact ⟨m, rfl⟩
      subst hmm
      simp only [Option.getD_some] at hn
      obtain ⟨g0, m', rfl⟩ : ∃ g0 m', m = g0 :: m' := by
        cases m with
        | nil => exact absurd rfl hn
        | cons a l => exact ⟨a, l, rfl⟩
      have h1 : ((g0 :: m').length == 0) = false := rfl
      have h2 : t.isEmpty = false := by
        cases t with
        | nil => exact absurd rfl ht
        | cons a l => rfl
      simp only [bz_search_engine_query, Option.getD_some,
        Option.isNone_some, Bool.false_or, h1, h2, Bool.or_false,
        Bool.false_eq_true, if_false, Option.some.injEq] at heq
      have hres := congrArg FinishedQuery.results heq
      have h0 : ((trivialOut (some (g0 :: m'))).results)[0]? =
          some ⟨g0, 0, none⟩ := by
        simp [trivialOut, List.getElem?_map, List.getElem?_enum]
      rw [← hres] at h0
      simp only [List.getElem?_map] at h0
      cases ho2 :
          ((queryTaskFiber u powQ P (t :: ts) (g0 :: m') biases).2)[0]? with
      | none => rw [ho2] at h0; simp at h0
      | some s => rw [ho2] at h0; simp at h0
    · intro h
      exact query_trivial_of_cond u powQ P model biases t ts h
  · intro u powQ P model biases x
    exact query_trivial_of_cond u powQ P model biases [] [x]
      (Or.inr (Or.inr rfl))
  · intro u powQ P m biases w hwne hmne hsep hq hb hx
    have h1 : (m.length == 0) = false := by
      cases m with
      | nil => exact absurd rfl hmne
      | cons g0 m' => rfl
    have h2 : w.isEmpty = false := by
      cases w with
      | nil => exact absurd rfl hwne
      | cons c w' => rfl
    have hq1 : (queryTaskFiber u powQ P [w] m biases).1 = w := by
      show (collectBiases biases (joinSpace [w])).1 = w
      rw [joinSpace_single]
      exact hq
    have hscores : (queryTaskFiber u powQ P [w] m biases).2 = [] := by
      rw [queryTaskFiber_snd_eq, joinSpace_single]
      have hnone : ∀ a ∈ List.range m.length,
          scoreEntry u powQ (collectBiases biases w).1
            (collectBiases biases w).2 m 1 a = none := by
        intro a _
        unfold scoreEntry
        cases hga : m[a]? with
        | none => rfl
        | some g =>
          simp only [hga]
          have hgm : g ∈ m := by
            obtain ⟨hlt, hgetEq⟩ := List.getElem?_eq_some.mp hga
            exact hgetEq ▸ List.getElem_mem hlt
          have hsc : candidateScore u powQ (collectBiases biases w).1
              (collectBiases biases w).2 g = 0 := by
            unfold candidateScore
            rw [foldl_applyBias_no_boost powQ g.id _ ?side]
            case side =>
              intro b hbm bs hbs
              rw [hb b hbm] at hbs
              cases hbs
            rw [hq]
            exact preBias_zero_rlen u w g (hx g hgm)
              (tokenize_sep_zero_rlen u w hsep)
          rw [hsc]
          have hlt : ¬ ((1 : ℚ) < 0) := by norm_num
          simp [hlt]
      rw [List.filterMap_eq_nil_iff.mpr hnone]
      rfl
    simp only [bz_search_engine_query, Option.getD_some, Option.isNone_some,
      Bool.false_or, h1, h2, Bool.or_false, Bool.false_eq_true, if_false]
    rw [hq1, hscores]
    rfl

theorem trivial_path_condition_witness :
    bz_search_engine_query asciiUni qpow0 1 (some [gXab]) [] [[32]] =
      some { interpreted_query := [32], results := [] } :=
  trivial_path_condition_amended.2.2 asciiUni qpow0 1 [gXab] [] [32]
    (by decide) (by decide) (by decide) rfl
    (fun b hb => absurd hb (List.not_mem_nil b))
    (by decide)

theorem score_gWsId :
    candidateScore asciiUni qpow0 [32] [] gWsId = G_MAXINT := by
  simp only [candidateScore, List.foldl_nil]
  have hex : isExactMatch asciiUni [32] gWsId = true := by decide
  unfold preBiasScore
  rw [hex]
  simp

/-- C10's parenthetical is false: a call whose single term is the
whitespace-only string `" "` runs the full scoring path, yet the result
list is not empty — the candidate `gWsId`, whose identifier is the
whitespace string itself, is an exact match and is returned with score
`G_MAXINT`. -/
theorem trivial_path_condition_counterexample :
    bz_search_engine_query asciiUni qpow0 1 (some [gWsId]) [] [[32]] =
      some { interpreted_query := [32],
             results := [⟨gWsId, 0, some G_MAXINT⟩] } := by
  have hf0 : scoreEntry asciiUni qpow0 [32] [] [gWsId] 1 0 =
      some ⟨0, G_MAXINT⟩ := by
    unfold scoreEntry
    simp only [List.getElem?_cons_zero]
    rw [score_gWsId]
    have hs : gWsId.searchable = true := rfl
    have h1 : (1 : ℚ) < G_MAXINT := by norm_num [G_MAXINT]
    simp [hs, h1]
  have h2 : (queryTaskFiber asciiUni qpow0 1 [[32]] [gWsId] []).2 =
      [⟨0, G_MAXINT⟩] := by
    rw [queryTaskFiber_snd_eq]
    have hcollect : collectBiases [] (joinSpace [[32]]) = ([32], []) := rfl
    simp only [hcollect]
    have hrange : List.range ([gWsId].length) = [0] := rfl
    rw [hrange, List.filterMap_cons_some hf0, List.filterMap_nil]
    rfl
  have hpair : queryTaskFiber asciiUni qpow0 1 [[32]] [gWsId] [] =
      ([32], [⟨0, G_MAXINT⟩]) :=
    Prod.ext rfl h2
  simp [bz_search_engine_query, hpair]
